import Mathlib

/-!
Verification of the document retrieval subsystem of the `law_rag` repository.

The Python sources are embedded shallowly:
* `embeddings/processor.py` : `clean_text`, `split_into_chunks` (segmenter);
* `rag/retriever.py` : `search_similar_chunks` (semantic ranker),
  `search_by_keywords` (lexical ranker), `hybrid_search` (hybrid combiner),
  `get_document_context` (context expander).

Strings are modelled as lists of characters.  Scores are rationals (the
Python floats only ever undergo the exact arithmetic proved about here).
The embedding backend is abstracted as a per-row score function `sim`,
exactly as `search_similar_chunks` consumes the cosine-similarity row;
`numpy.argsort` is modelled as a stable ascending sort of row indices and
Python's `sorted(..., reverse=True)` as a stable descending sort, both via
`List.insertionSort`.
-/

namespace LawRag

/-- Characters are the string alphabet; a Python `str` is a `List Char`. -/
abbrev Str := List Char

/-- The ASCII fragment of Python's `\s` class, used by `str.split()`,
`str.strip()` and the `\s+` regex in `clean_text`. -/
def isSpaceChar (c : Char) : Bool :=
  c = ' ' || c = '\t' || c = '\n' || c = '\r' || c = '\x0b' || c = '\x0c'

/-- `str.lower` on the ASCII letters (the fragment the proofs depend on). -/
def charLower (c : Char) : Char :=
  if 'A' ≤ c && c ≤ 'Z' then Char.ofNat (c.toNat + 32) else c

/-- `str.strip()` : drop leading and trailing whitespace. -/
def pyStrip (s : Str) : Str :=
  ((s.dropWhile isSpaceChar).reverse.dropWhile isSpaceChar).reverse

/-- `re.sub(r'\s+', ' ', text)` : every maximal whitespace run becomes one
space.  The boolean argument records whether the previous character was
whitespace (so that only the first of a run emits the space). -/
def collapseWSAux : Bool → Str → Str
  | _, [] => []
  | prevWS, c :: rest =>
    if isSpaceChar c then
      (if prevWS then [] else [' ']) ++ collapseWSAux true rest
    else c :: collapseWSAux false rest

def collapseWS (s : Str) : Str := collapseWSAux false s

/-- The allow-list of `re.sub(r'[^\w\s\.\,\;\:\!\?\-\(\)\[\]\"\'№§]', '', ...)`:
word characters (ASCII fragment of `\w`), whitespace, punctuation and the
two legal-document symbols. -/
def isAllowedChar (c : Char) : Bool :=
  c.isAlphanum || c = '_' || isSpaceChar c ||
    c ∈ ['.', ',', ';', ':', '!', '?', '-', '(', ')', '[', ']', '"', '\'', '№', '§']

def stripDisallowed (s : Str) : Str := s.filter isAllowedChar

/-- Emit a run of `k` consecutive periods as `re.sub(r'\.{3,}', '...', ...)`
leaves it: runs of three or more collapse to exactly three. -/
def dotsOut (k : Nat) : Str := List.replicate (min k 3) '.'

/-- State: number of pending consecutive periods already read. -/
def collapseDotsAux : Nat → Str → Str
  | k, [] => dotsOut k
  | k, c :: rest =>
    if c = '.' then collapseDotsAux (k + 1) rest
    else dotsOut k ++ c :: collapseDotsAux 0 rest

def collapseDots (s : Str) : Str := collapseDotsAux 0 s

/-- `DocumentProcessor.clean_text` : collapse whitespace, strip characters
outside the allow-list, collapse 3+ periods, trim. -/
def clean_text (t : Str) : Str :=
  pyStrip (collapseDots (stripDisallowed (collapseWS t)))

/-- Python `str.split()` (no separator): split on whitespace runs, dropping
empty pieces.  `cur` holds the current word reversed. -/
def splitWSAux : Str → Str → List Str
  | [], cur => if cur = [] then [] else [cur.reverse]
  | c :: rest, cur =>
    if isSpaceChar c then
      (if cur = [] then [] else [cur.reverse]) ++ splitWSAux rest []
    else splitWSAux rest (c :: cur)

def splitWS (s : Str) : List Str := splitWSAux s []

/-- `set(s.lower().split())` : the token set of a query or a segment. -/
def tokenSet (s : Str) : Finset Str := (splitWS (s.map charLower)).toFinset

/-! ### The retrieval cache rows and ranker result records -/

/-- One row of the retriever's `_chunks_cache`: the metadata dictionary built
by `_load_chunks_and_embeddings` / `_load_chunks_for_keyword_search`
(filename/title omitted: no claim mentions them). -/
structure Chunk where
  id : Nat
  content : Str
  chunk_index : Nat
  start_position : Nat
  end_position : Nat
deriving DecidableEq, Inhabited

/-- A ranker result dictionary.  The optional fields mirror the keys the
Python code adds to the chunk's dictionary copy: the semantic ranker sets
`similarity_score`, the lexical ranker sets `keyword_score` and
`matched_words`, and the hybrid combiner sets `final_score`. -/
structure RDict where
  chunk : Chunk
  similarity_score : Option ℚ := none
  keyword_score : Option ℚ := none
  matched_words : Option (Finset Str) := none
  final_score : Option ℚ := none
deriving DecidableEq, Inhabited

/-- Python's `sorted(l, key := k, reverse := True)`: a stable descending
sort (ties keep their original relative order). -/
def pySortDesc (key : α → ℚ) (l : List α) : List α :=
  List.insertionSort (fun a b => key b ≤ key a) l

/-- `numpy.argsort(scores)` on the row indices `0, …, n-1`, modelled as a
stable ascending sort (numpy's insertion sort for small inputs). -/
def argsortAsc (score : Nat → ℚ) (n : Nat) : List Nat :=
  List.insertionSort (fun i j => score i ≤ score j) (List.range n)

/-- `DocumentRetriever.search_similar_chunks`, given the cache rows and the
cosine-similarity row `sim` (one score per cache row): take the `top_k`
indices of `np.argsort(similarities)[::-1]`, attach the scores, and keep
only results whose score exceeds `0.3`. -/
def search_similar_chunks (cache : List Chunk) (sim : Nat → ℚ) (top_k : Nat) :
    List RDict :=
  if cache.length = 0 then []
  else
    ((((argsortAsc sim cache.length).reverse).take top_k).map fun i =>
      ({ chunk := cache.get! i, similarity_score := some (sim i) } : RDict)).filter
      fun r => decide ((3 / 10 : ℚ) < r.similarity_score.getD 0)

/-- The loop body of `search_by_keywords`: given the query token set, a
cached segment either scores `|intersection| / |query tokens|` with its
matched words, or is dropped when the intersection is empty. -/
def kwEntry (qw : Finset Str) (ch : Chunk) : Option RDict :=
  if qw ∩ tokenSet ch.content = ∅ then none
  else some ({ chunk := ch,
               keyword_score := some
                 (((qw ∩ tokenSet ch.content).card : ℚ) / (qw.card : ℚ)),
               matched_words := some (qw ∩ tokenSet ch.content) } : RDict)

/-- `DocumentRetriever.search_by_keywords` : score each cached segment by
`|querySet ∩ contentSet| / |querySet|`, keep only nonempty intersections,
sort descending by score (stable) and truncate to `top_k`. -/
def search_by_keywords (cache : List Chunk) (query : Str) (top_k : Nat) :
    List RDict :=
  (pySortDesc (fun r => r.keyword_score.getD 0)
    (cache.filterMap (kwEntry (tokenSet query)))).take top_k

/-! ### The hybrid combiner -/

/-- `combined_results[chunk_id] = result; …['final_score'] = …['similarity_score']`. -/
def semSet (r : RDict) : RDict := { r with final_score := r.similarity_score }

/-- Insert a semantic result into the insertion-ordered id-keyed dictionary
(overwriting in place when the id is already present, as a Python dict
assignment does). -/
def addSem (acc : List RDict) (r : RDict) : List RDict :=
  if acc.any (fun x => x.chunk.id = r.chunk.id) then
    acc.map fun x => if x.chunk.id = r.chunk.id then semSet r else x
  else acc ++ [semSet r]

/-- An already-present entry absorbs a lexical result:
`…['final_score'] += result['keyword_score'] * 0.3` and the matched words
are overwritten. -/
def kwUpd (x r : RDict) : RDict :=
  { x with
    final_score := some (x.final_score.getD 0 + r.keyword_score.getD 0 * (3 / 10)),
    matched_words := some (r.matched_words.getD ∅) }

/-- A lexical-only result enters with `final_score = keyword_score * 0.5`. -/
def kwNew (r : RDict) : RDict :=
  { r with final_score := some (r.keyword_score.getD 0 * (1 / 2)) }

/-- Merge one lexical result into the combined dictionary. -/
def addKw (acc : List RDict) (r : RDict) : List RDict :=
  if acc.any (fun x => x.chunk.id = r.chunk.id) then
    acc.map fun x => if x.chunk.id = r.chunk.id then kwUpd x r else x
  else acc ++ [kwNew r]

/-- `DocumentRetriever.hybrid_search`.  `avail` is the
`self.embedding_model` truthiness test: when the model is unavailable the
lexical ranker's output is returned unchanged.  Otherwise the semantic
ranker is run for `top_k * 2` candidates and the lexical ranker for
`top_k`, the two result sets are fused by segment id, and the fused list is
sorted descending by `final_score` and truncated to `top_k`. -/
def hybrid_search (cache : List Chunk) (sim : Nat → ℚ) (avail : Bool)
    (query : Str) (top_k : Nat) : List RDict :=
  if avail = false then search_by_keywords cache query top_k
  else
    (pySortDesc (fun r => r.final_score.getD 0)
      ((search_by_keywords cache query top_k).foldl addKw
        ((search_similar_chunks cache sim (top_k * 2)).foldl addSem []))).take top_k

/-! ### The context expander (`get_document_context`) -/

/-- A persisted row of the `document_chunks` table. -/
structure DbChunk where
  id : Nat
  document_id : Nat
  chunk_index : Nat
  content : Str
  start_position : Nat
  end_position : Nat
deriving DecidableEq, Inhabited

/-- The successful result dictionary: the target chunk plus its ordered
context rows. -/
structure DocContext where
  main_chunk : DbChunk
  context_chunks : List DbChunk
deriving DecidableEq

/-- `DatabaseManager.get_chunk_by_id` : first row of the table with the
given id, or an explicit absence. -/
def get_chunk_by_id (store : List DbChunk) (chunk_id : Nat) : Option DbChunk :=
  store.find? fun c => c.id = chunk_id

/-- `DocumentRetriever.get_document_context` : `none` models the `{}`
returned on an id miss; on a hit, the sibling query
`WHERE document_id = ? AND chunk_index BETWEEN max(0, i - r) AND i + r
ORDER BY chunk_index` is a filter of the table followed by a stable sort on
the ordinal index (`Nat` subtraction is exactly the `max(0, ·)` clip). -/
def get_document_context (store : List DbChunk) (chunk_id : Nat)
    (context_size : Nat) : Option DocContext :=
  match store.find? (fun c => c.id = chunk_id) with
  | none => none
  | some ch =>
    some ⟨ch, List.insertionSort (fun a b => a.chunk_index ≤ b.chunk_index)
      (store.filter fun c =>
        decide (c.document_id = ch.document_id) &&
          decide (ch.chunk_index - context_size ≤ c.chunk_index) &&
          decide (c.chunk_index ≤ ch.chunk_index + context_size))⟩

/-! ### The segmenter (`split_into_chunks`) -/

/-- One emitted segment dictionary. -/
structure PyChunk where
  index : Nat
  content : Str
  start_position : Nat
  end_position : Nat
  size : Nat
deriving DecidableEq, Inhabited

/-- Adjust the (possibly negative) `start` argument of `str.rfind` the way
Python slicing does: a negative index counts from the end and clamps at 0. -/
def pyAdjLo (n : Nat) (lo : Int) : Nat :=
  if lo < 0 then ((n : Int) + lo).toNat else lo.toNat

/-- Highest index `i` with `lo ≤ i < hi` and `s[i] = c`, scanning downward
from `hi`.  Out-of-range indices fail the `s.get? i` test. -/
def rfindInRange (s : Str) (c : Char) (lo : Nat) : Nat → Option Nat
  | 0 => none
  | hi + 1 =>
    if lo ≤ hi ∧ s.get? hi = some c then some hi
    else rfindInRange s c lo hi

/-- `s.rfind(c, lo, hi)` for a single-character needle, `lo : Int` because
`end - overlap` can be negative in the Python caller. -/
def pyRfind (s : Str) (c : Char) (lo : Int) (hi : Nat) : Option Nat :=
  rfindInRange s c (pyAdjLo s.length lo) hi

/-- The boundary search of one loop iteration of `split_into_chunks`:
clip the window to the text, and if it does not reach the end of the text,
pull the boundary back to the last period in `[end - overlap, end)` (using
it only if it lies strictly beyond `start`), else to the last space in that
range, else keep the raw boundary. -/
def computeEnd (text : Str) (cs ov start : Nat) : Nat :=
  let n := text.length
  let e0 := min (start + cs) n
  if e0 < n then
    let lo : Int := (e0 : Int) - (ov : Int)
    let spaceFB : Nat :=
      match pyRfind text ' ' lo e0 with
      | some j => if start < j then j else e0
      | none => e0
    match pyRfind text '.' lo e0 with
    | some i => if start < i then i + 1 else spaceFB
    | none => spaceFB
  else e0

/-- The `while start < len(cleaned_text)` loop of `split_into_chunks`,
with an explicit fuel so the recursion is structural: each iteration
advances `start` by at least one, so `text.length` fuel always suffices
(proved below).  An empty trimmed window is skipped; the next start is
`max(end - overlap, start + 1)` and the loop breaks when it reaches `end`. -/
def splitChunksFuel (text : Str) (cs ov : Nat) : Nat → Nat → Nat → List PyChunk
  | 0, _, _ => []
  | fuel + 1, start, idx =>
    if start < text.length then
      let e := computeEnd text cs ov start
      let content := pyStrip ((text.drop start).take (e - start))
      let next := max (e - ov) (start + 1)
      if content = [] then
        (if e ≤ next then [] else splitChunksFuel text cs ov fuel next idx)
      else
        ⟨idx, content, start, e, content.length⟩ ::
          (if e ≤ next then [] else splitChunksFuel text cs ov fuel next (idx + 1))
    else []

/-- `DocumentProcessor.split_into_chunks` : clean the text, then run the
windowing loop from position 0. -/
def split_into_chunks (t : Str) (cs ov : Nat) : List PyChunk :=
  splitChunksFuel (clean_text t) cs ov (clean_text t).length 0 0

/-! ### Helper lemmas: tokenization -/

lemma charLower_of_space {c : Char} (h : isSpaceChar c = true) : charLower c = c := by
  simp only [isSpaceChar, Bool.or_eq_true, decide_eq_true_eq] at h
  rcases h with ((((h | h) | h) | h) | h) | h <;> subst h <;> decide

lemma splitWSAux_all_space : ∀ s : Str, (∀ c ∈ s, isSpaceChar c = true) →
    splitWSAux s [] = [] := by
  intro s
  induction s with
  | nil => intro _; rfl
  | cons c rest ih =>
    intro h
    have hc : isSpaceChar c = true := h c (List.mem_cons_self _ _)
    simp only [splitWSAux, hc, if_true, reduceIte, List.nil_append]
    exact ih fun d hd => h d (List.mem_cons_of_mem _ hd)

lemma tokenSet_all_space {q : Str} (h : ∀ c ∈ q, isSpaceChar c = true) :
    tokenSet q = ∅ := by
  unfold tokenSet splitWS
  rw [splitWSAux_all_space]
  · rfl
  · intro c hc
    rcases List.mem_map.mp hc with ⟨d, hd, rfl⟩
    rw [charLower_of_space (h d hd)]
    exact h d hd

/-! ### Helper lemmas: the lexical ranker -/

/-- Characterization of membership in the lexical ranker's output. -/
lemma mem_search_by_keywords {cache : List Chunk} {q : Str} {k : Nat} {r : RDict}
    (hr : r ∈ search_by_keywords cache q k) :
    ∃ ch ∈ cache,
      tokenSet q ∩ tokenSet ch.content ≠ ∅ ∧
      r = { chunk := ch,
            keyword_score := some
              (((tokenSet q ∩ tokenSet ch.content).card : ℚ) / ((tokenSet q).card : ℚ)),
            matched_words := some (tokenSet q ∩ tokenSet ch.content) } := by
  unfold search_by_keywords at hr
  have hr' := List.mem_of_mem_take hr
  rw [pySortDesc, List.mem_insertionSort] at hr'
  rcases List.mem_filterMap.mp hr' with ⟨ch, hch, hsome⟩
  unfold kwEntry at hsome
  by_cases hemp : tokenSet q ∩ tokenSet ch.content = ∅
  · rw [if_pos hemp] at hsome; cases hsome
  · rw [if_neg hemp] at hsome
    exact ⟨ch, hch, hemp, (Option.some_inj.mp hsome).symm⟩

/-- The lexical score can never exceed 1: the intersection is a subset of
the (deduplicated) query token set. -/
lemma keyword_score_le_one {cache : List Chunk} {q : Str} {k : Nat} {r : RDict}
    (hr : r ∈ search_by_keywords cache q k) : r.keyword_score.getD 0 ≤ 1 := by
  rcases mem_search_by_keywords hr with ⟨ch, _, hne, rfl⟩
  simp only [Option.getD_some]
  have hsub : tokenSet q ∩ tokenSet ch.content ⊆ tokenSet q := Finset.inter_subset_left
  have hcard : (tokenSet q ∩ tokenSet ch.content).card ≤ (tokenSet q).card :=
    Finset.card_le_card hsub
  have hpos : 0 < (tokenSet q).card := by
    rcases Finset.nonempty_iff_ne_empty.mpr hne with ⟨t, ht⟩
    exact Finset.card_pos.mpr ⟨t, hsub ht⟩
  rw [div_le_one (by exact_mod_cast hpos)]
  exact_mod_cast hcard

/-! ### Claims C2, C3, C7, C10 -/

/-- C2: graceful degradation — with the embedding model unavailable,
`hybrid_search(q, k)` is exactly `search_by_keywords(q, k)`; the fusion
step is bypassed and no error is raised (the model is a total function). -/
theorem hybrid_degrades_to_lexical (cache : List Chunk) (sim : Nat → ℚ)
    (q : Str) (k : Nat) :
    hybrid_search cache sim false q k = search_by_keywords cache q k := rfl

/-- C3: the semantic ranker never returns a result with similarity score
below (in fact, not even equal to) the 0.3 floor, and an empty cache of
vector rows yields an empty result list rather than an error. -/
theorem semantic_floor_and_empty_cache (cache : List Chunk) (sim : Nat → ℚ) (k : Nat) :
    (search_similar_chunks cache sim k).Forall
      (fun r => (3 / 10 : ℚ) < r.similarity_score.getD 0) ∧
    search_similar_chunks [] sim k = [] := by
  constructor
  · rw [List.forall_iff_forall_mem]
    intro r hr
    unfold search_similar_chunks at hr
    split at hr
    · cases hr
    · simp only [List.mem_filter] at hr
      exact of_decide_eq_true hr.2
  · rfl

/-- C10: for an empty (or whitespace-only) query the lexical ranker returns
an empty result list and never raises: the query token set is empty, so
every intersection is empty and the zero-intersection guard excludes every
segment before the division by `len(query_words)` is ever evaluated. -/
theorem empty_query_yields_empty (cache : List Chunk) (q : Str) (k : Nat)
    (hq : ∀ c ∈ q, isSpaceChar c = true) :
    search_by_keywords cache q k = [] := by
  unfold search_by_keywords
  rw [tokenSet_all_space hq]
  rw [show cache.filterMap (kwEntry ∅) = [] from
    List.filterMap_eq_nil_iff.mpr fun ch _ => by simp [kwEntry]]
  simp [pySortDesc]

/-- C10 witness: the empty query on a concrete one-row cache. -/
theorem empty_query_yields_empty_witness :
    (∀ c ∈ ([' ', '\t'] : Str), isSpaceChar c = true) ∧
      search_by_keywords [⟨1, ['a', 'b'], 0, 0, 2⟩] [' ', '\t'] 5 = [] :=
  ⟨by decide, empty_query_yields_empty _ _ _ (by decide)⟩

/-- C7 counterexample: the claim asserts some query with duplicate tokens
and some matching segment get a keyword score strictly greater than 1; in
the code `query_words = set(query.lower().split())` deduplicates the query
tokens, so the score `|intersection| / |query_words|` is never above 1 —
the claimed input cannot exist. -/
theorem lexical_score_never_exceeds_one :
    ¬ ∃ (cache : List Chunk) (q : Str) (k : Nat) (r : RDict),
        r ∈ search_by_keywords cache q k ∧ 1 < r.keyword_score.getD 0 := by
  rintro ⟨cache, q, k, r, hr, hgt⟩
  exact absurd hgt (not_lt.mpr (keyword_score_le_one hr))

/-- C7 (amended): each returned segment's keyword score equals
`|intersection(queryTokens, segmentTokens)| / |queryTokens|` where the
query tokens are the deduplicated token set, zero-intersection segments are
excluded, and — since the intersection is a subset of the query token set —
the score never exceeds 1, duplicate query tokens notwithstanding. -/
theorem lexical_score_formula (cache : List Chunk) (q : Str) (k : Nat) :
    ∀ r ∈ search_by_keywords cache q k,
      tokenSet q ∩ tokenSet r.chunk.content ≠ ∅ ∧
      r.keyword_score = some
        (((tokenSet q ∩ tokenSet r.chunk.content).card : ℚ) / ((tokenSet q).card : ℚ)) ∧
      r.keyword_score.getD 0 ≤ 1 := by
  intro r hr
  obtain ⟨ch, hch, hne, rfl⟩ := mem_search_by_keywords hr
  exact ⟨hne, rfl, keyword_score_le_one hr⟩

/-- A concrete cache row used by witnesses. -/
def chunkA : Chunk := ⟨1, ['a', 'b', ' ', 'c'], 0, 0, 4⟩

/-- Another concrete cache row used by witnesses. -/
def chunkB : Chunk := ⟨2, ['z', 'z'], 1, 4, 6⟩

/-- The lexical result the ranker produces for `chunkA` and query `"ab"`. -/
def kwResultA : RDict :=
  { chunk := chunkA,
    keyword_score := some
      (((tokenSet ['a', 'b'] ∩ tokenSet chunkA.content).card : ℚ) /
        ((tokenSet ['a', 'b']).card : ℚ)),
    matched_words := some (tokenSet ['a', 'b'] ∩ tokenSet chunkA.content) }

/-- C7 witness: a concrete query and segment hitting the formula with a
nonempty intersection. -/
theorem lexical_score_formula_witness :
    kwResultA ∈ search_by_keywords [chunkA] ['a', 'b'] 5 ∧
    (tokenSet ['a', 'b'] ∩ tokenSet kwResultA.chunk.content ≠ ∅ ∧
      kwResultA.keyword_score = some
        (((tokenSet ['a', 'b'] ∩ tokenSet kwResultA.chunk.content).card : ℚ) /
          ((tokenSet ['a', 'b']).card : ℚ)) ∧
      kwResultA.keyword_score.getD 0 ≤ 1) :=
  ⟨by with_unfolding_all decide,
   lexical_score_formula [chunkA] ['a', 'b'] 5 kwResultA (by with_unfolding_all decide)⟩

/-! ### Claim C6: semantic tie-break order -/

lemma insertionSort_of_total {α} {r : α → α → Prop} [DecidableRel r]
    (h : ∀ a b, r a b) (l : List α) : List.insertionSort r l = l := by
  induction l with
  | nil => rfl
  | cons a l ih =>
    rw [List.insertionSort, ih]
    cases l with
    | nil => rfl
    | cons b t => exact List.orderedInsert_of_le r t (h a b)

lemma argsortAsc_const (s : ℚ) (n : Nat) : argsortAsc (fun _ => s) n = List.range n :=
  insertionSort_of_total (fun _ _ => le_refl s) _

lemma get!_eq_getElem {α} [Inhabited α] (l : List α) (i : Nat) (h : i < l.length) :
    l.get! i = l[i] := by
  rw [List.get!_eq_getD, List.getD_eq_getElem?_getD, List.getElem?_eq_getElem h,
    Option.getD_some]

/-- C6 counterexample: two cache rows with equal similarity scores are
returned in reverse cache order — row 1 before row 0 — contradicting the
claim that equal-score segments keep their cache row order.  The ascending
argsort is stable, and the `[::-1]` reversal flips each tied block. -/
theorem semantic_tie_order_cex :
    search_similar_chunks [chunkA, chunkB] (fun _ => 1) 2 =
      [{ chunk := chunkB, similarity_score := some 1 },
       { chunk := chunkA, similarity_score := some 1 }] ∧ chunkA ≠ chunkB := by
  with_unfolding_all decide

/-- C6 (amended): the semantic ranker is deterministic (a pure function of
the cache and the score row), but equal-score segments appear in REVERSE
cache row order: with all scores equal (and above the floor) the output is
exactly the reversed cache. -/
theorem semantic_ties_reversed (cache : List Chunk) (s : ℚ)
    (hs : (3 / 10 : ℚ) < s) :
    search_similar_chunks cache (fun _ => s) cache.length =
      cache.reverse.map fun c => ({ chunk := c, similarity_score := some s } : RDict) := by
  unfold search_similar_chunks
  by_cases h0 : cache.length = 0
  · rw [if_pos h0, List.length_eq_zero.mp h0]
    rfl
  · rw [if_neg h0, argsortAsc_const, List.take_of_length_le (by simp), List.map_reverse]
    have hmap : (List.range cache.length).map
        (fun i => ({ chunk := cache.get! i, similarity_score := some s } : RDict)) =
        cache.map fun c => ({ chunk := c, similarity_score := some s } : RDict) := by
      apply List.ext_getElem
      · simp
      · intro i h1 h2
        simp only [List.getElem_map, List.getElem_range]
        congr 1
        exact get!_eq_getElem cache i (by simpa using h2)
    rw [hmap]
    have hfil : List.filter (fun r => decide ((3 / 10 : ℚ) < r.similarity_score.getD 0))
        ((cache.map fun c =>
          ({ chunk := c, similarity_score := some s } : RDict)).reverse) =
        (cache.map fun c => ({ chunk := c, similarity_score := some s } : RDict)).reverse := by
      apply List.filter_eq_self.mpr
      intro a ha
      rw [List.mem_reverse, List.mem_map] at ha
      rcases ha with ⟨c, _, rfl⟩
      exact decide_eq_true hs
    rw [hfil, List.map_reverse]

/-- C6 witness: the amended reversal at a concrete two-row cache. -/
theorem semantic_ties_reversed_witness :
    ((3 / 10 : ℚ) < 1) ∧
      search_similar_chunks [chunkA, chunkB] (fun _ => 1) 2 =
        [chunkA, chunkB].reverse.map
          (fun c => ({ chunk := c, similarity_score := some 1 } : RDict)) :=
  ⟨by with_unfolding_all decide,
   semantic_ties_reversed [chunkA, chunkB] 1 (by with_unfolding_all decide)⟩

/-! ### Claim C8: context expansion -/

/-- C8: a missing segment id yields the explicit not-found result (`none`,
modelling the `{}` return) and never raises; a present id yields a result
whose context consists of exactly the store rows of the same document with
ordinal index in `[index - radius, index + radius]` (the lower bound
clipped at 0 by `Nat` subtraction), ordered by ordinal index: the target
is among them, every returned row is such a sibling, and — completeness —
every same-document store row in the clipped range appears in the
result. -/
theorem context_expansion_spec (store : List DbChunk) (chunk_id radius : Nat) :
    (get_chunk_by_id store chunk_id = none →
      get_document_context store chunk_id radius = none) ∧
    (∀ ch, get_chunk_by_id store chunk_id = some ch →
      ∃ ctx, get_document_context store chunk_id radius = some ctx ∧
        ctx.main_chunk = ch ∧
        ch ∈ ctx.context_chunks ∧
        ctx.context_chunks.Sorted (fun a b => a.chunk_index ≤ b.chunk_index) ∧
        (∀ c ∈ ctx.context_chunks,
          c ∈ store ∧ c.document_id = ch.document_id ∧
          ch.chunk_index - radius ≤ c.chunk_index ∧
          c.chunk_index ≤ ch.chunk_index + radius) ∧
        ∀ c ∈ store, c.document_id = ch.document_id →
          ch.chunk_index - radius ≤ c.chunk_index →
          c.chunk_index ≤ ch.chunk_index + radius →
          c ∈ ctx.context_chunks) := by
  constructor
  · intro hnone
    unfold get_document_context
    unfold get_chunk_by_id at hnone
    rw [hnone]
  · intro ch hch
    unfold get_document_context
    unfold get_chunk_by_id at hch
    rw [hch]
    refine ⟨_, rfl, rfl, ?_, ?_, ?_, ?_⟩
    · rw [List.mem_insertionSort, List.mem_filter]
      refine ⟨List.mem_of_find?_eq_some hch, ?_⟩
      simp only [Bool.and_eq_true, decide_eq_true_eq]
      exact ⟨⟨trivial, Nat.sub_le _ _⟩, Nat.le_add_right _ _⟩
    · haveI : IsTotal DbChunk (fun a b => a.chunk_index ≤ b.chunk_index) :=
        ⟨fun a b => Nat.le_total _ _⟩
      haveI : IsTrans DbChunk (fun a b => a.chunk_index ≤ b.chunk_index) :=
        ⟨fun _ _ _ => Nat.le_trans⟩
      exact List.sorted_insertionSort _ _
    · intro c hc
      rw [List.mem_insertionSort, List.mem_filter] at hc
      obtain ⟨hcs, hprops⟩ := hc
      simp only [Bool.and_eq_true, decide_eq_true_eq] at hprops
      exact ⟨hcs, hprops.1.1, hprops.1.2, hprops.2⟩
    · intro c hc hdoc hlo hhi
      rw [List.mem_insertionSort, List.mem_filter]
      refine ⟨hc, ?_⟩
      simp only [Bool.and_eq_true, decide_eq_true_eq]
      exact ⟨⟨hdoc, hlo⟩, hhi⟩

/-- A concrete segment store used by the C8 witness. -/
def storeW : List DbChunk :=
  [⟨1, 10, 0, ['x'], 0, 1⟩, ⟨2, 10, 1, ['y'], 1, 2⟩,
   ⟨3, 10, 2, ['w'], 2, 3⟩, ⟨4, 11, 0, ['z'], 0, 1⟩]

/-- The target row of the C8 witness. -/
def dbRow2 : DbChunk := ⟨2, 10, 1, ['y'], 1, 2⟩

/-- C8 witness: a concrete miss (id 99) and a concrete hit (id 2, radius 1). -/
theorem context_expansion_spec_witness :
    get_document_context storeW 99 1 = none ∧
    (∃ ctx, get_document_context storeW 2 1 = some ctx ∧
      ctx.main_chunk = dbRow2 ∧
      dbRow2 ∈ ctx.context_chunks ∧
      ctx.context_chunks.Sorted (fun a b => a.chunk_index ≤ b.chunk_index) ∧
      (∀ c ∈ ctx.context_chunks,
        c ∈ storeW ∧ c.document_id = dbRow2.document_id ∧
        dbRow2.chunk_index - 1 ≤ c.chunk_index ∧
        c.chunk_index ≤ dbRow2.chunk_index + 1) ∧
      ∀ c ∈ storeW, c.document_id = dbRow2.document_id →
        dbRow2.chunk_index - 1 ≤ c.chunk_index →
        c.chunk_index ≤ dbRow2.chunk_index + 1 →
        c ∈ ctx.context_chunks) :=
  ⟨(context_expansion_spec storeW 99 1).1 (by decide),
   (context_expansion_spec storeW 2 1).2 dbRow2 (by decide)⟩

/-! ### Helper lemmas: the segmenter -/

lemma dropWhile_idem (p : α → Bool) (l : List α) :
    (l.dropWhile p).dropWhile p = l.dropWhile p := by
  induction l with
  | nil => rfl
  | cons a t ih =>
    by_cases h : p a = true
    · simp [List.dropWhile_cons, h, ih]
    · simp [List.dropWhile_cons, h]

lemma dropWhile_reverse_dropWhile (p : α → Bool) (l : List α)
    (hl : l.dropWhile p = l) :
    ((l.reverse.dropWhile p).reverse).dropWhile p = (l.reverse.dropWhile p).reverse := by
  cases l with
  | nil => rfl
  | cons c t =>
    have hc : p c = false := by
      by_contra hb
      have hb' : p c = true := by revert hb; cases p c <;> simp
      rw [List.dropWhile_cons, if_pos hb'] at hl
      have hlen := congrArg List.length hl
      have hle := (List.dropWhile_sublist (l := t) p).length_le
      simp only [List.length_cons] at hlen
      omega
    rw [List.reverse_cons, List.dropWhile_append]
    split
    · simp [List.dropWhile_cons, hc]
    · rw [List.reverse_append]
      simp [List.dropWhile_cons, hc]

lemma pyStrip_idem (s : Str) : pyStrip (pyStrip s) = pyStrip s := by
  unfold pyStrip
  rw [dropWhile_reverse_dropWhile isSpaceChar (s.dropWhile isSpaceChar)
    (dropWhile_idem _ _)]
  rw [List.reverse_reverse, dropWhile_idem]

lemma pyStrip_clean_text (t : Str) : pyStrip (clean_text t) = clean_text t := by
  unfold clean_text
  exact pyStrip_idem _

lemma pyStrip_length_le (s : Str) : (pyStrip s).length ≤ s.length := by
  unfold pyStrip
  have h1 := (List.dropWhile_sublist (l := s) isSpaceChar).length_le
  have h2 := (List.dropWhile_sublist (l := (s.dropWhile isSpaceChar).reverse)
    isSpaceChar).length_le
  simp only [List.length_reverse] at h2 ⊢
  omega

lemma collapseWSAux_length_le (s : Str) : ∀ b, (collapseWSAux b s).length ≤ s.length := by
  induction s with
  | nil => intro b; simp [collapseWSAux]
  | cons c t ih =>
    intro b
    by_cases h : isSpaceChar c = true
    · have h1 := ih true
      cases b <;> simp [collapseWSAux, h] <;> omega
    · have h1 := ih false
      simp [collapseWSAux, h]
      omega

lemma collapseDotsAux_length_le (s : Str) :
    ∀ k, (collapseDotsAux k s).length ≤ min k 3 + s.length := by
  induction s with
  | nil =>
    intro k
    simp only [collapseDotsAux, dotsOut, List.length_replicate, List.length_nil]
    omega
  | cons c t ih =>
    intro k
    by_cases h : c = '.'
    · have h1 := ih (k + 1)
      simp [collapseDotsAux, h]
      omega
    · have h1 := ih 0
      simp [collapseDotsAux, h, dotsOut]
      omega

lemma clean_text_length_le (t : Str) : (clean_text t).length ≤ t.length := by
  unfold clean_text collapseDots stripDisallowed collapseWS
  have h1 := pyStrip_length_le (collapseDotsAux 0 ((collapseWSAux false t).filter isAllowedChar))
  have h2 := collapseDotsAux_length_le ((collapseWSAux false t).filter isAllowedChar) 0
  have h3 := List.length_filter_le isAllowedChar (collapseWSAux false t)
  have h4 := collapseWSAux_length_le t false
  omega

/-! ### Claim C4: segmentation of short texts -/

/-- C4 counterexample: the text `"ab"` has length 2 ≤ maxLength = 30, yet
`split_into_chunks` returns TWO segments, not one: after emitting the full
text as the first segment, the next start `max(end - overlap, start + 1) = 1`
is still smaller than `end = 2`, so the loop runs again and emits the
suffix `"b"`. -/
theorem short_text_single_segment_cex :
    (['a', 'b'] : Str).length ≤ 30 ∧
    (split_into_chunks ['a', 'b'] 30 10).length = 2 := by decide

/-- C4 (amended): for text of length at most `maxLength` with non-empty
cleaned form, the FIRST returned segment has content exactly the cleaned
text, spanning window `[0, len(cleaned))` — but it need not be the only
segment: when `overlap ≥ 1` and the cleaned text has ≥ 2 characters the
loop keeps emitting shorter suffixes of the cleaned text. -/
theorem short_text_first_segment (t : Str) (cs ov : Nat)
    (hle : t.length ≤ cs) (hne : clean_text t ≠ []) :
    (split_into_chunks t cs ov).head? =
      some ⟨0, clean_text t, 0, (clean_text t).length, (clean_text t).length⟩ := by
  have hcl : (clean_text t).length ≤ cs := le_trans (clean_text_length_le t) hle
  have hpos : 0 < (clean_text t).length := List.length_pos.mpr hne
  have hce : computeEnd (clean_text t) cs ov 0 = (clean_text t).length := by
    simp only [computeEnd, Nat.zero_add]
    rw [Nat.min_eq_right hcl, if_neg (lt_irrefl _)]
  unfold split_into_chunks
  obtain ⟨m, hm⟩ : ∃ m, (clean_text t).length = m + 1 :=
    ⟨_, (Nat.succ_pred_eq_of_pos hpos).symm⟩
  have hcontent : pyStrip (List.take (m + 1 - 0) (List.drop 0 (clean_text t))) =
      clean_text t := by
    rw [Nat.sub_zero, List.drop_zero, ← hm, List.take_length, pyStrip_clean_text]
  rw [hm, splitChunksFuel]
  rw [if_pos (by omega : 0 < (clean_text t).length)]
  simp only [hce, hm]
  rw [hcontent, if_neg hne, hm]
  rfl

/-- C4 witness: the amended head-segment property at the counterexample's
own input. -/
theorem short_text_first_segment_witness :
    (['a', 'b'] : Str).length ≤ 30 ∧ clean_text ['a', 'b'] ≠ [] ∧
    (split_into_chunks ['a', 'b'] 30 10).head? =
      some ⟨0, clean_text ['a', 'b'], 0, (clean_text ['a', 'b']).length,
        (clean_text ['a', 'b']).length⟩ :=
  ⟨by decide, by decide, short_text_first_segment ['a', 'b'] 30 10 (by decide) (by decide)⟩

/-! ### Claim C5: segmentation totality and window bounds -/

lemma rfindInRange_spec {s : Str} {c : Char} {lo : Nat} :
    ∀ {hi i : Nat}, rfindInRange s c lo hi = some i →
      lo ≤ i ∧ i < hi ∧ s.get? i = some c := by
  intro hi
  induction hi with
  | zero => intro i h; cases h
  | succ n ih =>
    intro i h
    unfold rfindInRange at h
    split at h
    · rename_i hcond
      cases h
      exact ⟨hcond.1, Nat.lt_succ_self _, hcond.2⟩
    · have h' := ih h
      exact ⟨h'.1, Nat.lt_succ_of_lt h'.2.1, h'.2.2⟩

lemma pyRfind_lt {s : Str} {c : Char} {lo : Int} {hi i : Nat}
    (h : pyRfind s c lo hi = some i) : i < hi := by
  unfold pyRfind at h
  exact (rfindInRange_spec h).2.1

/-- Bounds of the space-fallback expression inside `computeEnd`. -/
lemma fallbackEnd_bounds (text : Str) (start e0 : Nat) (lo : Int) (c : Char)
    (hs : start < e0) (he : e0 ≤ text.length) :
    start < (match pyRfind text c lo e0 with
             | some j => if start < j then j else e0
             | none => e0) ∧
    (match pyRfind text c lo e0 with
     | some j => if start < j then j else e0
     | none => e0) ≤ text.length := by
  rcases h : pyRfind text c lo e0 with _ | j
  · exact ⟨hs, he⟩
  · have hj := pyRfind_lt h
    simp only []
    split
    · rename_i hsj
      exact ⟨hsj, le_trans (le_of_lt hj) he⟩
    · exact ⟨hs, he⟩

lemma computeEnd_bounds (text : Str) (cs ov start : Nat)
    (hst : start < text.length) (hcs : 1 ≤ cs) :
    start < computeEnd text cs ov start ∧
      computeEnd text cs ov start ≤ text.length := by
  have he0 : start < min (start + cs) text.length := lt_min (by omega) hst
  have he0' : min (start + cs) text.length ≤ text.length := min_le_right _ _
  simp only [computeEnd]
  split
  · rcases hdot : pyRfind text '.'
        ((min (start + cs) text.length : Nat) - (ov : Int))
        (min (start + cs) text.length) with _ | i
    · exact fallbackEnd_bounds text start _ _ ' ' he0 he0'
    · have hi := pyRfind_lt hdot
      dsimp only
      split
      · rename_i hsi
        exact ⟨Nat.lt_succ_of_lt hsi, by omega⟩
      · exact fallbackEnd_bounds text start _ _ ' ' he0 he0'
  · exact ⟨he0, he0'⟩

lemma splitChunksFuel_bounds (text : Str) (cs ov : Nat) (hcs : 1 ≤ cs) :
    ∀ fuel start idx c, c ∈ splitChunksFuel text cs ov fuel start idx →
      c.start_position < c.end_position ∧ c.end_position ≤ text.length := by
  intro fuel
  induction fuel with
  | zero => intro start idx c h; cases h
  | succ n ih =>
    intro start idx c h
    simp only [splitChunksFuel] at h
    split at h
    · rename_i hst
      have hb := computeEnd_bounds text cs ov start hst hcs
      split at h
      · split at h
        · cases h
        · exact ih _ _ _ h
      · rcases List.mem_cons.mp h with rfl | h'
        · exact hb
        · split at h'
          · cases h'
          · exact ih _ _ _ h'
    · cases h

lemma splitChunksFuel_stable (text : Str) (cs ov : Nat) :
    ∀ f₁ f₂ start idx, text.length - start ≤ f₁ → text.length - start ≤ f₂ →
      splitChunksFuel text cs ov f₁ start idx =
        splitChunksFuel text cs ov f₂ start idx := by
  intro f₁
  induction f₁ with
  | zero =>
    intro f₂ start idx h1 h2
    have hge : ¬ start < text.length := by omega
    cases f₂ with
    | zero => rfl
    | succ m => simp [splitChunksFuel, hge]
  | succ n ih =>
    intro f₂ start idx h1 h2
    cases f₂ with
    | zero =>
      have hge : ¬ start < text.length := by omega
      simp [splitChunksFuel, hge]
    | succ m =>
      simp only [splitChunksFuel]
      by_cases hst : start < text.length
      · rw [if_pos hst, if_pos hst]
        have hrec : ∀ j, splitChunksFuel text cs ov n
            (max (computeEnd text cs ov start - ov) (start + 1)) j =
            splitChunksFuel text cs ov m
              (max (computeEnd text cs ov start - ov) (start + 1)) j := by
          intro j
          apply ih
          · have := le_max_right (computeEnd text cs ov start - ov) (start + 1)
            omega
          · have := le_max_right (computeEnd text cs ov start - ov) (start + 1)
            omega
        rw [hrec idx, hrec (idx + 1)]
      · rw [if_neg hst, if_neg hst]

/-- The loop of `split_into_chunks` is insensitive to any fuel of at least
the cleaned text's length: the next start position strictly increases each
iteration, so the loop performs at most `len(cleaned)` iterations before
`start ≥ end` (or `start ≥ len`) stops it — this is the termination claim. -/
def splitStable (t : Str) (cs ov : Nat) : Prop :=
  ∀ fuel, (clean_text t).length ≤ fuel →
    splitChunksFuel (clean_text t) cs ov fuel 0 0 = split_into_chunks t cs ov

/-- Every emitted segment's recorded window `[start, end)` is non-empty and
lies inside the cleaned text. -/
def splitBounds (t : Str) (cs ov : Nat) : Prop :=
  ∀ c ∈ split_into_chunks t cs ov,
    c.start_position < c.end_position ∧
      c.end_position ≤ (clean_text t).length

/-- C5: for every text and every `maxLength ≥ 1` and overlap (`Nat`, hence
arbitrary ≥ 0), segmentation terminates — the result is stable under any
sufficient fuel, because the next start `max(end - overlap, start + 1)`
strictly increases and the loop exits when `start ≥ end` — and every
emitted window satisfies `0 ≤ start < end ≤ len(cleaned text)` (the lower
bound is automatic for naturals). -/
theorem segmentation_terminates_and_bounds (t : Str) (cs ov : Nat) (hcs : 1 ≤ cs) :
    splitStable t cs ov ∧ splitBounds t cs ov := by
  constructor
  · intro fuel hf
    unfold split_into_chunks
    exact splitChunksFuel_stable _ _ _ fuel _ 0 0 (by omega) (by omega)
  · intro c hc
    exact splitChunksFuel_bounds _ _ _ hcs _ _ _ c hc

/-- C5 witness: a concrete text with a sentence boundary, window 2 and
overlap 1. -/
theorem segmentation_terminates_and_bounds_witness :
    1 ≤ 2 ∧ (splitStable ['a', '.', 'b'] 2 1 ∧ splitBounds ['a', '.', 'b'] 2 1) :=
  ⟨by decide, segmentation_terminates_and_bounds ['a', '.', 'b'] 2 1 (by decide)⟩

/-! ### Helper lemmas: the hybrid combiner's id-keyed dictionary -/

/-- The segment ids of a result list — the Python dict keys. -/
def keys (l : List RDict) : List Nat := l.map fun r => r.chunk.id

@[simp] lemma semSet_chunk (r : RDict) : (semSet r).chunk = r.chunk := rfl

@[simp] lemma kwUpd_chunk (x r : RDict) : (kwUpd x r).chunk = x.chunk := rfl

@[simp] lemma kwNew_chunk (r : RDict) : (kwNew r).chunk = r.chunk := rfl

lemma keys_append (l₁ l₂ : List RDict) : keys (l₁ ++ l₂) = keys l₁ ++ keys l₂ :=
  List.map_append _ _ _

lemma keys_map_semSet (l : List RDict) : keys (l.map semSet) = keys l := by
  unfold keys
  rw [List.map_map]
  rfl

/-- With pairwise distinct ids, `find?` on a member's id returns exactly
that member. -/
lemma find?_eq_some_of_nodup :
    ∀ {l : List RDict}, (keys l).Nodup → ∀ {r : RDict}, r ∈ l →
      l.find? (fun x => decide (x.chunk.id = r.chunk.id)) = some r := by
  intro l
  induction l with
  | nil => intro _ r hr; cases hr
  | cons a t ih =>
    intro hnd r hr
    have hnd' : (keys t).Nodup := by
      rw [keys, List.map_cons] at hnd
      exact hnd.of_cons
    by_cases hpa : a.chunk.id = r.chunk.id
    · rcases List.mem_cons.mp hr with rfl | hrt
      · simp [List.find?_cons]
      · exfalso
        have hmem : r.chunk.id ∈ keys t := List.mem_map_of_mem _ hrt
        rw [keys, List.map_cons] at hnd
        rw [List.nodup_cons] at hnd
        exact hnd.1 (hpa ▸ hmem)
    · have hrt : r ∈ t := by
        rcases List.mem_cons.mp hr with rfl | hrt
        · exact absurd rfl hpa
        · exact hrt
      rw [List.find?_cons]
      have : (decide (a.chunk.id = r.chunk.id)) = false := by
        simp [hpa]
      rw [this]
      exact ih hnd' hrt

lemma find?_eq_none_of_not_mem_keys {l : List RDict} {n : Nat}
    (h : n ∉ keys l) : l.find? (fun x => decide (x.chunk.id = n)) = none := by
  rw [List.find?_eq_none]
  intro x hx
  simp only [decide_eq_true_eq]
  intro heq
  exact h (heq ▸ List.mem_map_of_mem _ hx)

/-- Folding the semantic results into the empty dictionary (with pairwise
distinct ids) just records them in order, setting
`final_score := similarity_score`. -/
lemma foldl_addSem_closed :
    ∀ (sem acc : List RDict), (keys sem).Nodup →
      (∀ r ∈ sem, r.chunk.id ∉ keys acc) →
      sem.foldl addSem acc = acc ++ sem.map semSet := by
  intro sem
  induction sem with
  | nil => intro acc _ _; simp
  | cons r t ih =>
    intro acc hnd hdisj
    have hndt : (keys t).Nodup := by
      rw [keys, List.map_cons] at hnd
      exact hnd.of_cons
    have hrid : r.chunk.id ∉ keys t := by
      rw [keys, List.map_cons, List.nodup_cons] at hnd
      exact hnd.1
    have hany : acc.any (fun x => decide (x.chunk.id = r.chunk.id)) = false := by
      rw [List.any_eq_false]
      intro x hx
      simp only [decide_eq_true_eq]
      intro heq
      exact hdisj r (List.mem_cons_self _ _) (heq ▸ List.mem_map_of_mem _ hx)
    rw [List.foldl_cons]
    have haddSem : addSem acc r = acc ++ [semSet r] := by
      unfold addSem
      rw [hany]
      rfl
    rw [haddSem, ih (acc ++ [semSet r]) hndt ?_]
    · simp
    · intro r' hr'
      rw [keys_append]
      rw [List.mem_append]
      rintro (hl | hrr)
      · exact hdisj r' (List.mem_cons_of_mem _ hr') hl
      · have : r'.chunk.id = r.chunk.id := by
          simpa [keys] using hrr
        exact hrid (this ▸ List.mem_map_of_mem _ hr')

lemma any_congr_mem {α} {l : List α} {p q : α → Bool} (h : ∀ a ∈ l, p a = q a) :
    l.any p = l.any q := by
  induction l with
  | nil => rfl
  | cons a t ih =>
    simp only [List.any_cons, h a (List.mem_cons_self _ _)]
    rw [ih fun b hb => h b (List.mem_cons_of_mem _ hb)]

/-- The per-entry effect of folding the full lexical result list over an
id-keyed dictionary: look the entry's id up among the lexical results and,
if found, absorb the first match. -/
def kwApply (kw : List RDict) (x : RDict) : RDict :=
  match kw.find? (fun r => decide (r.chunk.id = x.chunk.id)) with
  | some r => kwUpd x r
  | none => x

lemma kwApply_cons_eq {r x : RDict} (h : r.chunk.id = x.chunk.id)
    (rest : List RDict) : kwApply (r :: rest) x = kwUpd x r := by
  unfold kwApply
  rw [List.find?_cons]
  rw [show (decide (r.chunk.id = x.chunk.id)) = true from by simp [h]]

lemma kwApply_cons_ne {r x : RDict} (h : ¬ r.chunk.id = x.chunk.id)
    (rest : List RDict) : kwApply (r :: rest) x = kwApply rest x := by
  unfold kwApply
  rw [List.find?_cons]
  rw [show (decide (r.chunk.id = x.chunk.id)) = false from by simp [h]]

lemma kwApply_not_mem {kw : List RDict} {x : RDict}
    (h : x.chunk.id ∉ keys kw) : kwApply kw x = x := by
  unfold kwApply
  rw [find?_eq_none_of_not_mem_keys h]

/-- Folding the lexical results into a dictionary `c` with pairwise
distinct ids (the lexical ids being pairwise distinct as well): entries
already present absorb their unique lexical match in place; lexical
results whose id is absent from `c` are appended, in order, with the
0.5-penalized score. -/
lemma foldl_addKw_closed :
    ∀ (kw c : List RDict), (keys kw).Nodup → (keys c).Nodup →
      kw.foldl addKw c =
        c.map (kwApply kw) ++
          (kw.filter fun r =>
            !(c.any fun x => decide (x.chunk.id = r.chunk.id))).map kwNew := by
  intro kw
  induction kw with
  | nil =>
    intro c _ _
    simp only [List.foldl_nil, List.filter_nil, List.map_nil, List.append_nil]
    rw [List.map_congr_left fun x _ => kwApply_not_mem (by simp [keys])]
    simp
  | cons r rest ih =>
    intro c hnd hcnd
    have hndrest : (keys rest).Nodup := by
      rw [keys, List.map_cons] at hnd
      exact hnd.of_cons
    have hrid : r.chunk.id ∉ keys rest := by
      rw [keys, List.map_cons, List.nodup_cons] at hnd
      exact hnd.1
    rw [List.foldl_cons]
    by_cases hany : (c.any fun x => decide (x.chunk.id = r.chunk.id)) = true
    · -- the id is already present: in-place update
      have haddKw : addKw c r =
          c.map fun x => if x.chunk.id = r.chunk.id then kwUpd x r else x := by
        unfold addKw
        rw [hany]
        rfl
      have hidpres : ∀ x : RDict,
          (if x.chunk.id = r.chunk.id then kwUpd x r else x).chunk.id = x.chunk.id := by
        intro x
        by_cases h : x.chunk.id = r.chunk.id <;> simp [h]
      have hkeysu : keys (c.map fun x =>
          if x.chunk.id = r.chunk.id then kwUpd x r else x) = keys c := by
        unfold keys
        rw [List.map_map]
        exact List.map_congr_left fun x _ => hidpres x
      rw [haddKw, ih _ hndrest (by rw [hkeysu]; exact hcnd)]
      congr 1
      · rw [List.map_map]
        apply List.map_congr_left
        intro x hx
        simp only [Function.comp]
        by_cases hxr : x.chunk.id = r.chunk.id
        · rw [if_pos hxr]
          have h2 : kwApply rest (kwUpd x r) = kwUpd x r :=
            kwApply_not_mem (by simpa [hxr] using hrid)
          rw [h2, kwApply_cons_eq hxr.symm]
        · rw [if_neg hxr]
          rw [kwApply_cons_ne (fun h => hxr h.symm)]
      · rw [List.filter_cons]
        rw [if_neg (by rw [hany]; simp)]
        congr 1
        apply List.filter_congr
        intro s hs
        congr 1
        rw [List.any_map]
        apply any_congr_mem
        intro x _
        simp only [Function.comp]
        rw [hidpres x]
    · -- the id is new: appended with the 0.5 penalty
      have hany' : (c.any fun x => decide (x.chunk.id = r.chunk.id)) = false := by
        revert hany
        cases c.any fun x => decide (x.chunk.id = r.chunk.id) <;> simp
      have hnotmem : r.chunk.id ∉ keys c := by
        intro hmem
        rcases List.mem_map.mp hmem with ⟨x, hx, hxid⟩
        have : (c.any fun x => decide (x.chunk.id = r.chunk.id)) = true := by
          rw [List.any_eq_true]
          exact ⟨x, hx, by simp [hxid]⟩
        rw [hany'] at this
        cases this
      have haddKw : addKw c r = c ++ [kwNew r] := by
        unfold addKw
        rw [hany']
        rfl
      have hknd : (keys (c ++ [kwNew r])).Nodup := by
        rw [keys_append]
        apply List.Nodup.append hcnd (by simp [keys])
        intro n hn
        simp only [keys, List.map_cons, List.map_nil, List.mem_singleton, kwNew_chunk]
        intro he
        exact hnotmem (he ▸ hn)
      rw [haddKw, ih _ hndrest hknd]
      have h2 : kwApply rest (kwNew r) = kwNew r :=
        kwApply_not_mem (by simpa using hrid)
      have hmapc : c.map (kwApply rest) = c.map (kwApply (r :: rest)) := by
        apply List.map_congr_left
        intro x hx
        have hne : ¬ r.chunk.id = x.chunk.id := by
          intro he
          exact hnotmem (he ▸ List.mem_map_of_mem _ hx)
        rw [kwApply_cons_ne hne]
      have hfiltc : rest.filter (fun s =>
          !((c ++ [kwNew r]).any fun x => decide (x.chunk.id = s.chunk.id))) =
          rest.filter fun s => !(c.any fun x => decide (x.chunk.id = s.chunk.id)) := by
        apply List.filter_congr
        intro s hs
        have hsne : ¬ r.chunk.id = s.chunk.id := fun he =>
          hrid (he ▸ List.mem_map_of_mem _ hs)
        congr 1
        rw [List.any_append]
        rw [show ([kwNew r].any fun x => decide (x.chunk.id = s.chunk.id)) = false from
          by simp [hsne]]
        simp
      rw [List.map_append, hfiltc, hmapc]
      rw [List.filter_cons, if_pos (by rw [hany']; simp)]
      simp only [List.map_cons, List.map_nil, h2]
      rw [List.append_assoc]
      rfl

/-! ### Helper lemmas: distinct ids in the two rankers' outputs -/

lemma keys_search_similar_nodup (cache : List Chunk) (sim : Nat → ℚ) (k : Nat)
    (hnd : (cache.map Chunk.id).Nodup) :
    (keys (search_similar_chunks cache sim k)).Nodup := by
  unfold search_similar_chunks
  split
  · simp [keys]
  · have hLnd : (((argsortAsc sim cache.length).reverse).take k).Nodup := by
      apply (List.take_sublist _ _).nodup
      rw [List.nodup_reverse]
      unfold argsortAsc
      exact ((List.perm_insertionSort _ _).nodup_iff).mpr (List.nodup_range _)
    have hLlt : ∀ i ∈ ((argsortAsc sim cache.length).reverse).take k,
        i < cache.length := by
      intro i hi
      have h1 := List.mem_of_mem_take hi
      rw [List.mem_reverse] at h1
      unfold argsortAsc at h1
      rw [List.mem_insertionSort, List.mem_range] at h1
      exact h1
    unfold keys
    apply List.Sublist.nodup
      (List.Sublist.map (fun r : RDict => r.chunk.id) (List.filter_sublist _))
    rw [List.map_map]
    apply List.Nodup.map_on ?_ hLnd
    intro i hi j hj hij
    have hi' : i < cache.length := hLlt i hi
    have hj' : j < cache.length := hLlt j hj
    simp only [Function.comp] at hij
    rw [get!_eq_getElem cache i hi', get!_eq_getElem cache j hj'] at hij
    have hi2 : i < (cache.map Chunk.id).length := by simpa using hi'
    have hj2 : j < (cache.map Chunk.id).length := by simpa using hj'
    have hmi : getElem (cache.map Chunk.id) i hi2 = getElem (cache.map Chunk.id) j hj2 := by
      rw [List.getElem_map, List.getElem_map]
      exact hij
    exact (hnd.getElem_inj_iff).mp hmi

lemma keys_filterMap_kwEntry (qw : Finset Str) :
    ∀ cache : List Chunk,
      List.Sublist (keys (cache.filterMap (kwEntry qw))) (cache.map Chunk.id) := by
  intro cache
  induction cache with
  | nil => simp [keys]
  | cons ch t ih =>
    rw [List.filterMap_cons]
    cases hke : kwEntry qw ch with
    | none =>
      rw [List.map_cons]
      exact ih.cons _
    | some r =>
      have hid : r.chunk.id = ch.id := by
        unfold kwEntry at hke
        split at hke
        · cases hke
        · cases hke
          rfl
      rw [List.map_cons]
      unfold keys
      rw [List.map_cons, hid]
      exact List.Sublist.cons₂ _ ih

lemma keys_search_by_keywords_nodup (cache : List Chunk) (q : Str) (k : Nat)
    (hnd : (cache.map Chunk.id).Nodup) :
    (keys (search_by_keywords cache q k)).Nodup := by
  unfold search_by_keywords
  have hM : (keys (cache.filterMap (kwEntry (tokenSet q)))).Nodup :=
    (keys_filterMap_kwEntry (tokenSet q) cache).nodup hnd
  have hperm : List.Perm (keys (pySortDesc (fun r => r.keyword_score.getD 0)
      (cache.filterMap (kwEntry (tokenSet q)))))
      (keys (cache.filterMap (kwEntry (tokenSet q)))) :=
    (List.perm_insertionSort _ _).map _
  apply List.Sublist.nodup (List.Sublist.map (fun r : RDict => r.chunk.id)
    (List.take_sublist _ _))
  exact hperm.nodup_iff.mpr hM

/-- Every semantic result carries an actual similarity score. -/
lemma sem_score_isSome {cache : List Chunk} {sim : Nat → ℚ} {k : Nat} {r : RDict}
    (hr : r ∈ search_similar_chunks cache sim k) :
    r.similarity_score = some (r.similarity_score.getD 0) := by
  unfold search_similar_chunks at hr
  split at hr
  · cases hr
  · rw [List.mem_filter] at hr
    rcases List.mem_map.mp hr.1 with ⟨i, _, rfl⟩
    rfl

/-- Every lexical result carries an actual keyword score. -/
lemma kw_score_isSome {cache : List Chunk} {q : Str} {k : Nat} {r : RDict}
    (hr : r ∈ search_by_keywords cache q k) :
    r.keyword_score = some (r.keyword_score.getD 0) := by
  rcases mem_search_by_keywords hr with ⟨ch, _, _, rfl⟩
  rfl

/-! ### Claim C1: the hybrid fusion formula -/

/-- The C1 property of `hybrid_search` with the model available: at most
`k` results, sorted descending by fused score, and each returned segment's
fused score determined by which ranker outputs its id appears in:
both → `semantic + lexical * 0.3`; semantic-only → `semantic`;
lexical-only → `lexical * 0.5`; and every result comes from one of the two
rankers. -/
def fusedScoreSpec (cache : List Chunk) (sim : Nat → ℚ) (q : Str) (k : Nat) : Prop :=
  (hybrid_search cache sim true q k).length ≤ k ∧
  List.Sorted (fun a b : RDict => b.final_score.getD 0 ≤ a.final_score.getD 0)
    (hybrid_search cache sim true q k) ∧
  ∀ x ∈ hybrid_search cache sim true q k,
    match (search_similar_chunks cache sim (k * 2)).find?
        (fun s => decide (s.chunk.id = x.chunk.id)),
      (search_by_keywords cache q k).find?
        (fun s => decide (s.chunk.id = x.chunk.id)) with
    | some rs, some rk =>
        x.final_score =
          some (rs.similarity_score.getD 0 + rk.keyword_score.getD 0 * (3 / 10))
    | some rs, none => x.final_score = some (rs.similarity_score.getD 0)
    | none, some rk => x.final_score = some (rk.keyword_score.getD 0 * (1 / 2))
    | none, none => False

/-- C1: the hybrid ranking fusion formula, for caches whose rows carry
pairwise distinct segment ids (the ids are primary keys of the
`document_chunks` table). -/
theorem hybrid_fusion_formula (cache : List Chunk) (sim : Nat → ℚ) (q : Str)
    (k : Nat) (hnd : (cache.map Chunk.id).Nodup) : fusedScoreSpec cache sim q k := by
  have hsemnd := keys_search_similar_nodup cache sim (k * 2) hnd
  have hkwnd := keys_search_by_keywords_nodup cache q k hnd
  have hC0 : (search_similar_chunks cache sim (k * 2)).foldl addSem [] =
      (search_similar_chunks cache sim (k * 2)).map semSet := by
    have h := foldl_addSem_closed (search_similar_chunks cache sim (k * 2)) [] hsemnd
      (by intro r _; simp [keys])
    simpa using h
  have hC0nd : (keys ((search_similar_chunks cache sim (k * 2)).map semSet)).Nodup := by
    rw [keys_map_semSet]
    exact hsemnd
  have hcomb := foldl_addKw_closed (search_by_keywords cache q k)
    ((search_similar_chunks cache sim (k * 2)).map semSet) hkwnd hC0nd
  have hhyb : hybrid_search cache sim true q k =
      (pySortDesc (fun r => r.final_score.getD 0)
        ((search_by_keywords cache q k).foldl addKw
          ((search_similar_chunks cache sim (k * 2)).foldl addSem []))).take k := rfl
  refine ⟨?_, ?_, ?_⟩
  · rw [hhyb, List.length_take]
    exact min_le_left _ _
  · rw [hhyb]
    haveI : IsTotal RDict (fun a b => b.final_score.getD 0 ≤ a.final_score.getD 0) :=
      ⟨fun a b => le_total _ _⟩
    haveI : IsTrans RDict (fun a b => b.final_score.getD 0 ≤ a.final_score.getD 0) :=
      ⟨fun a b c h1 h2 => le_trans h2 h1⟩
    exact List.Pairwise.sublist (List.take_sublist _ _) (List.sorted_insertionSort _ _)
  · intro x hx
    rw [hhyb] at hx
    have hxc : x ∈ (search_by_keywords cache q k).foldl addKw
        ((search_similar_chunks cache sim (k * 2)).foldl addSem []) := by
      have h1 := List.mem_of_mem_take hx
      rw [pySortDesc, List.mem_insertionSort] at h1
      exact h1
    rw [hC0, hcomb] at hxc
    rcases List.mem_append.mp hxc with hml | hfl
    · rcases List.mem_map.mp hml with ⟨x₀, hx₀, rfl⟩
      rcases List.mem_map.mp hx₀ with ⟨r₀, hr₀, rfl⟩
      have hidk : (kwApply (search_by_keywords cache q k) (semSet r₀)).chunk.id =
          r₀.chunk.id := by
        unfold kwApply
        split <;> rfl
      simp only [hidk]
      rw [find?_eq_some_of_nodup hsemnd hr₀]
      rcases hk : (search_by_keywords cache q k).find?
          (fun s => decide (s.chunk.id = r₀.chunk.id)) with _ | rk
      · rw [hk]
        have hx2 : kwApply (search_by_keywords cache q k) (semSet r₀) = semSet r₀ := by
          unfold kwApply
          simp only [semSet_chunk]
          rw [hk]
        rw [hx2]
        exact sem_score_isSome hr₀
      · rw [hk]
        have hx2 : kwApply (search_by_keywords cache q k) (semSet r₀) =
            kwUpd (semSet r₀) rk := by
          unfold kwApply
          simp only [semSet_chunk]
          rw [hk]
        rw [hx2]
        rfl
    · rcases List.mem_map.mp hfl with ⟨rk, hrkf, rfl⟩
      rw [List.mem_filter] at hrkf
      obtain ⟨hrkkw, hpred⟩ := hrkf
      have hanyf : ((search_similar_chunks cache sim (k * 2)).map semSet).any
          (fun y => decide (y.chunk.id = rk.chunk.id)) = false := by
        revert hpred
        cases ((search_similar_chunks cache sim (k * 2)).map semSet).any
          (fun y => decide (y.chunk.id = rk.chunk.id)) <;> simp
      have hnotmem : rk.chunk.id ∉ keys (search_similar_chunks cache sim (k * 2)) := by
        intro hmem
        rcases List.mem_map.mp hmem with ⟨s, hsm, hsid⟩
        have hcontra : ((search_similar_chunks cache sim (k * 2)).map semSet).any
            (fun y => decide (y.chunk.id = rk.chunk.id)) = true := by
          rw [List.any_eq_true]
          exact ⟨semSet s, List.mem_map_of_mem _ hsm, by simp [hsid]⟩
        rw [hanyf] at hcontra
        cases hcontra
      simp only [kwNew_chunk]
      rw [find?_eq_none_of_not_mem_keys hnotmem, find?_eq_some_of_nodup hkwnd hrkkw]
      rfl

/-- C1 witness: a concrete two-row cache with both rankers contributing —
row 2 appears in both rankers' outputs, row 1 in both as well, with fused
scores `9/10 + (1/2)·(3/10)` and `2/5 + (1/2)·(3/10)`. -/
theorem hybrid_fusion_formula_witness :
    (([chunkA, chunkB].map Chunk.id).Nodup) ∧
      fusedScoreSpec [chunkA, chunkB]
        (fun i => if i = 0 then (2 / 5 : ℚ) else 9 / 10)
        ['a', 'b', ' ', 'z', 'z'] 2 :=
  ⟨by decide,
   hybrid_fusion_formula [chunkA, chunkB]
     (fun i => if i = 0 then (2 / 5 : ℚ) else 9 / 10)
     ['a', 'b', ' ', 'z', 'z'] 2 (by decide)⟩

end LawRag
